import Mathlib

set_option linter.unusedVariables false

namespace Aris

/-- Propositional expression tree, modelled from the spec data model in section 3:
boolean atoms taut and contra, a variable or predicate-application node carrying a
name and zero or more argument expressions, unary negation, and the binary
connectives conjunction, disjunction, conditional, biconditional.
The aris expression module itself is not under src, so this follows the spec. -/
inductive Expr : Type where
  | taut : Expr
  | contra : Expr
  | var (name : String) (args : List Expr) : Expr
  | not (e : Expr) : Expr
  | and (l r : Expr) : Expr
  | or (l r : Expr) : Expr
  | imp (l r : Expr) : Expr
  | iff (l r : Expr) : Expr

/-- Little-endian index of a list of booleans, used to index a truth table by the
evaluated arguments of an applied metavariable. -/
def evalIndex : List Bool → Nat
  | [] => 0
  | b :: bs => (if b then 1 else 0) + 2 * evalIndex bs

mutual

/-- Modelled from the spec, section 4.4: evaluate a pattern side as a propositional
function over an assignment.  The environment maps each metavariable name to its
truth table (a list of 2 to the arity booleans); an applied name is evaluated by
indexing the table with the evaluated arguments. -/
def eval : Expr → (String → List Bool) → Bool
  | .taut, _ => true
  | .contra, _ => false
  | .var n args, env => (env n).getD (evalIndex (evalArgs args env)) false
  | .not e, env => !(eval e env)
  | .and l r, env => eval l env && eval r env
  | .or l r, env => eval l env || eval r env
  | .imp l r, env => !(eval l env) || eval r env
  | .iff l r, env => eval l env == eval r env

/-- Evaluate a list of argument expressions. -/
def evalArgs : List Expr → (String → List Bool) → List Bool
  | [], _ => []
  | e :: es, env => eval e env :: evalArgs es env

end

mutual

/-- All variable and metavariable names occurring in an expression.  The catalog
patterns contain no quantifiers, so every occurring name is free; this models
the free_vars analysis used by the oracle (the aris expression module is not
under src, modelled from the spec, section 4.3). -/
def namesOf : Expr → List String
  | .taut => []
  | .contra => []
  | .var n args => n :: namesOfArgs args
  | .not e => namesOf e
  | .and l r => namesOf l ++ namesOf r
  | .or l r => namesOf l ++ namesOf r
  | .imp l r => namesOf l ++ namesOf r
  | .iff l r => namesOf l ++ namesOf r

/-- Names occurring in a list of argument expressions. -/
def namesOfArgs : List Expr → List String
  | [] => []
  | e :: es => namesOf e ++ namesOfArgs es

end

mutual

/-- Modelled from the spec, section 4.3: infer_arities walks the expression and
for each applied name records the number of arguments observed.  The result is
the list of observations in traversal order; the catalog applies each name with
one consistent arity, so the first observation is the inferred arity. -/
def inferArities : Expr → List (String × Nat)
  | .taut => []
  | .contra => []
  | .var n args => (n, args.length) :: inferAritiesArgs args
  | .not e => inferArities e
  | .and l r => inferArities l ++ inferArities r
  | .or l r => inferArities l ++ inferArities r
  | .imp l r => inferArities l ++ inferArities r
  | .iff l r => inferArities l ++ inferArities r

/-- Arity observations for a list of argument expressions. -/
def inferAritiesArgs : List Expr → List (String × Nat)
  | [] => []
  | e :: es => inferArities e ++ inferAritiesArgs es

end

/-- Shorthand for a bare propositional variable, the zero-arity case. -/
def pv (n : String) : Expr := .var n []

/-- A rewrite rule is a named list of bidirectional pattern clauses; this mirrors
RewriteRule with its reductions field.  from_patterns parses pattern strings with
the aris parser, which is not under src; each pattern string from equivs.rs is
translated here directly into its expression tree. -/
structure RewriteRule where
  reductions : List (Expr × Expr)

def DOUBLE_NEGATION : RewriteRule :=
  ⟨[(.not (.not (pv "P")), pv "P")]⟩

def DISTRIBUTION : RewriteRule :=
  ⟨[(.or (.and (pv "P") (pv "Q")) (.and (pv "P") (pv "R")), .and (pv "P") (.or (pv "Q") (pv "R"))),
    (.and (.or (pv "P") (pv "Q")) (.or (pv "P") (pv "R")), .or (pv "P") (.and (pv "Q") (pv "R")))]⟩

def IDENTITY : RewriteRule :=
  ⟨[(.and (pv "phi") .taut, pv "phi"),
    (.or (pv "phi") .contra, pv "phi")]⟩

def ANNIHILATION : RewriteRule :=
  ⟨[(.and (pv "phi") .contra, .contra),
    (.or (pv "phi") .taut, .taut)]⟩

def INVERSE : RewriteRule :=
  ⟨[(.not .taut, .contra),
    (.not .contra, .taut)]⟩

def CONDITIONAL_ABSORPTION : RewriteRule :=
  ⟨[(.and (pv "phi") (.imp (.not (pv "phi")) (pv "psi")), pv "phi"),
    (.and (pv "psi") (.imp (pv "phi") (pv "psi")), pv "psi")]⟩

def CONDITIONAL_COMPLEMENT : RewriteRule :=
  ⟨[(.imp (pv "phi") (pv "phi"), .taut)]⟩

def CONDITIONAL_IDENTITY : RewriteRule :=
  ⟨[(.imp (pv "phi") .contra, .not (pv "phi")),
    (.imp .taut (pv "phi"), pv "phi")]⟩

def CONDITIONAL_ANNIHILATION : RewriteRule :=
  ⟨[(.imp (pv "phi") .taut, .taut),
    (.imp .contra (pv "phi"), .taut)]⟩

def CONDITIONAL_IMPLICATION : RewriteRule :=
  ⟨[(.imp (pv "phi") (pv "psi"), .or (.not (pv "phi")) (pv "psi")),
    (.not (.imp (pv "phi") (pv "psi")), .and (pv "phi") (.not (pv "psi")))]⟩

def CONDITIONAL_CONTRAPOSITION : RewriteRule :=
  ⟨[(.imp (.not (pv "phi")) (.not (pv "psi")), .imp (pv "psi") (pv "phi"))]⟩

def CONDITIONAL_EXPORTATION : RewriteRule :=
  ⟨[(.imp (pv "phi") (.imp (pv "psi") (pv "lambda")), .imp (.and (pv "phi") (pv "psi")) (pv "lambda"))]⟩

def CONDITIONAL_DISTRIBUTION : RewriteRule :=
  ⟨[(.imp (pv "phi") (.and (pv "psi") (pv "lambda")), .and (.imp (pv "phi") (pv "psi")) (.imp (pv "phi") (pv "lambda"))),
    (.imp (.or (pv "phi") (pv "psi")) (pv "lambda"), .and (.imp (pv "phi") (pv "lambda")) (.imp (pv "psi") (pv "lambda"))),
    (.imp (pv "phi") (.or (pv "psi") (pv "lambda")), .or (.imp (pv "phi") (pv "psi")) (.imp (pv "phi") (pv "lambda"))),
    (.imp (.and (pv "phi") (pv "psi")) (pv "lambda"), .or (.imp (pv "phi") (pv "lambda")) (.imp (pv "psi") (pv "lambda")))]⟩

def CONDITIONAL_REDUCTION : RewriteRule :=
  ⟨[(.and (pv "phi") (.imp (pv "phi") (pv "psi")), .and (pv "phi") (pv "psi")),
    (.and (.not (pv "psi")) (.imp (pv "phi") (pv "psi")), .and (.not (pv "psi")) (.not (pv "phi")))]⟩

def KNIGHTS_AND_KNAVES : RewriteRule :=
  ⟨[(.iff (pv "phi") (.and (pv "phi") (pv "psi")), .imp (pv "phi") (pv "psi")),
    (.iff (pv "phi") (.or (pv "phi") (pv "psi")), .imp (pv "psi") (pv "phi"))]⟩

def CONDITIONAL_IDEMPOTENCE : RewriteRule :=
  ⟨[(.imp (pv "phi") (.not (pv "phi")), .not (pv "phi")),
    (.imp (.not (pv "phi")) (pv "phi"), pv "phi")]⟩

def BICONDITIONAL_EQUIVALENCE : RewriteRule :=
  ⟨[(.and (.imp (pv "phi") (pv "psi")) (.imp (pv "psi") (pv "phi")), .iff (pv "phi") (pv "psi")),
    (.or (.and (pv "phi") (pv "psi")) (.and (.not (pv "phi")) (.not (pv "psi"))), .iff (pv "phi") (pv "psi"))]⟩

def BICONDITIONAL_COMMUTATION : RewriteRule :=
  ⟨[(.iff (pv "phi") (pv "psi"), .iff (pv "psi") (pv "phi"))]⟩

def BICONDITIONAL_ASSOCIATION : RewriteRule :=
  ⟨[(.iff (pv "phi") (.iff (pv "psi") (pv "lambda")), .iff (.iff (pv "phi") (pv "psi")) (pv "lambda"))]⟩

def BICONDITIONAL_REDUCTION : RewriteRule :=
  ⟨[(.and (pv "phi") (.iff (pv "phi") (pv "psi")), .and (pv "phi") (pv "psi")),
    (.and (.not (pv "phi")) (.iff (pv "phi") (pv "psi")), .and (.not (pv "phi")) (.not (pv "psi")))]⟩

def BICONDITIONAL_COMPLEMENT : RewriteRule :=
  ⟨[(.iff (pv "phi") (pv "phi"), .taut),
    (.iff (pv "phi") (.not (pv "phi")), .contra)]⟩

def BICONDITIONAL_IDENTITY : RewriteRule :=
  ⟨[(.iff (pv "phi") .contra, .not (pv "phi")),
    (.iff (pv "phi") .taut, pv "phi")]⟩

def BICONDITIONAL_NEGATION : RewriteRule :=
  ⟨[(.iff (.not (pv "phi")) (pv "psi"), .not (.iff (pv "phi") (pv "psi"))),
    (.iff (pv "phi") (.not (pv "psi")), .not (.iff (pv "phi") (pv "psi")))]⟩

def BICONDITIONAL_SUBSTITUTION : RewriteRule :=
  ⟨[(.and (.iff (pv "phi") (pv "psi")) (.var "S" [pv "phi"]),
     .and (.iff (pv "phi") (pv "psi")) (.var "S" [pv "psi"]))]⟩

def CONJUNCTION : RewriteRule :=
  ⟨[(.and (pv "phi") .taut, pv "phi"),
    (.and (pv "phi") .contra, .contra)]⟩

def DISJUNCTION : RewriteRule :=
  ⟨[(.or (pv "phi") .contra, pv "phi"),
    (.or (pv "phi") .taut, .taut)]⟩

def NEGATION : RewriteRule :=
  ⟨[(.not .taut, .contra),
    (.not .contra, .taut)]⟩

def BICOND_REDUCTION : RewriteRule :=
  ⟨[(.iff (pv "phi") .contra, .not (pv "phi")),
    (.iff (pv "phi") .taut, pv "phi")]⟩

def COND_REDUCTION : RewriteRule :=
  ⟨[(.imp (pv "phi") .taut, .taut),
    (.imp .contra (pv "phi"), .taut),
    (.imp (pv "phi") .contra, .not (pv "phi")),
    (.imp .taut (pv "phi"), pv "phi")]⟩

/-- The static catalog of rewrite rules defined in equivs.rs, in source order. -/
def catalog : List RewriteRule :=
  [DOUBLE_NEGATION, DISTRIBUTION, IDENTITY, ANNIHILATION, INVERSE,
   CONDITIONAL_ABSORPTION, CONDITIONAL_COMPLEMENT, CONDITIONAL_IDENTITY,
   CONDITIONAL_ANNIHILATION, CONDITIONAL_IMPLICATION, CONDITIONAL_CONTRAPOSITION,
   CONDITIONAL_EXPORTATION, CONDITIONAL_DISTRIBUTION, CONDITIONAL_REDUCTION,
   KNIGHTS_AND_KNAVES, CONDITIONAL_IDEMPOTENCE, BICONDITIONAL_EQUIVALENCE,
   BICONDITIONAL_COMMUTATION, BICONDITIONAL_ASSOCIATION, BICONDITIONAL_REDUCTION,
   BICONDITIONAL_COMPLEMENT, BICONDITIONAL_IDENTITY, BICONDITIONAL_NEGATION,
   BICONDITIONAL_SUBSTITUTION, CONJUNCTION, DISJUNCTION, NEGATION,
   BICOND_REDUCTION, COND_REDUCTION]

/-- All clauses of all rules of the catalog. -/
def catalogClauses : List (Expr × Expr) :=
  (catalog.map RewriteRule.reductions).flatten

/-- Free metavariable names of a clause, deduplicated, mirroring the union of
free_vars of both sides computed by the bruteforce test. -/
def clauseNames (c : Expr × Expr) : List String :=
  (namesOf c.1 ++ namesOf c.2).dedup

/-- Inferred arity of a name within a clause: the first arity observation for
that name across both sides, mirroring the arity map built by the bruteforce
test from infer_arities on the left and right patterns. -/
def clauseArity (c : Expr × Expr) (n : String) : Nat :=
  (((inferArities c.1 ++ inferArities c.2).find? (fun p => p.1 == n)).map Prod.snd).getD 0

/-- All boolean tables of a given length. -/
def allTables : Nat → List (List Bool)
  | 0 => [[]]
  | n + 1 => (allTables n).flatMap (fun t => [false :: t, true :: t])

/-- All assignments for a list of names with table sizes: every combination of a
table of the given size per name, as an association list. -/
def allEnvLists : List (String × Nat) → List (List (String × List Bool))
  | [] => [[]]
  | (n, len) :: rest =>
    (allTables len).flatMap (fun t => (allEnvLists rest).map (fun l => (n, t) :: l))

/-- Read an association-list assignment as an environment function. -/
def envOf (l : List (String × List Bool)) (n : String) : List Bool :=
  match l.find? (fun p => p.1 == n) with
  | some p => p.2
  | none => []

/-- The names of a clause paired with their table sizes, two to the inferred arity. -/
def clauseSpec (c : Expr × Expr) : List (String × Nat) :=
  (clauseNames c).map (fun n => (n, 2 ^ clauseArity c n))

/-- Executable oracle for one clause: enumerate every joint assignment of truth
tables to the free metavariables and check that both sides evaluate equally. -/
def clauseOK (c : Expr × Expr) : Bool :=
  (allEnvLists (clauseSpec c)).all (fun l => eval c.1 (envOf l) == eval c.2 (envOf l))

/-- Translation of the test helper in equivs.rs: the sequence of boolean rows
passed to the callback, in call order.  The helper loops x from 0 below 2 to
the n and sets entry i of the table to bit i of x before each call. -/
def for_each_truthtable (n : Nat) : List (List Bool) :=
  (List.range (2 ^ n)).map (fun x => (List.range n).map (fun i => x.testBit i))

mutual

/-- Structural equality of expressions, mirroring the derived equality used by
the matcher to compare bound values and instantiations. -/
def beqExpr : Expr → Expr → Bool
  | .taut, .taut => true
  | .contra, .contra => true
  | .var n as, .var m bs => n == m && beqArgs as bs
  | .not a, .not b => beqExpr a b
  | .and a b, .and c d => beqExpr a c && beqExpr b d
  | .or a b, .or c d => beqExpr a c && beqExpr b d
  | .imp a b, .imp c d => beqExpr a c && beqExpr b d
  | .iff a b, .iff c d => beqExpr a c && beqExpr b d
  | _, _ => false

/-- Structural equality of argument lists. -/
def beqArgs : List Expr → List Expr → Bool
  | [], [] => true
  | a :: as, b :: bs => beqExpr a b && beqArgs as bs
  | _, _ => false

end

/-- The hole marker used to represent a substitution context, following the spec
design note in section 9: abstraction replaces the bound occurrence with a marker. -/
def holeMarker : Expr := .var "_" []

mutual

/-- Replace every occurrence of target by repl.  Abstracting e out of a candidate
is replaceIn e holeMarker candidate; applying a context is replaceIn holeMarker e
context.  Modelled from the spec, section 9: context with hole construction. -/
def replaceIn (target repl : Expr) : Expr → Expr
  | .taut => if beqExpr .taut target then repl else .taut
  | .contra => if beqExpr .contra target then repl else .contra
  | .var n args =>
      if beqExpr (.var n args) target then repl else .var n (replaceInArgs target repl args)
  | .not a => if beqExpr (.not a) target then repl else .not (replaceIn target repl a)
  | .and a b =>
      if beqExpr (.and a b) target then repl
      else .and (replaceIn target repl a) (replaceIn target repl b)
  | .or a b =>
      if beqExpr (.or a b) target then repl
      else .or (replaceIn target repl a) (replaceIn target repl b)
  | .imp a b =>
      if beqExpr (.imp a b) target then repl
      else .imp (replaceIn target repl a) (replaceIn target repl b)
  | .iff a b =>
      if beqExpr (.iff a b) target then repl
      else .iff (replaceIn target repl a) (replaceIn target repl b)

/-- Replacement inside an argument list. -/
def replaceInArgs (target repl : Expr) : List Expr → List Expr
  | [] => []
  | e :: es => replaceIn target repl e :: replaceInArgs target repl es

end

/-- Bindings accumulated during one match attempt: plain metavariables bound to
subexpressions and functional metavariables bound to substitution contexts. -/
structure Bindings where
  plain : List (String × Expr)
  funcs : List (String × Expr)

/-- Look up a plain metavariable binding. -/
def lookupPlain (b : Bindings) (n : String) : Option Expr :=
  (b.plain.find? (fun p => p.1 == n)).map Prod.snd

/-- Look up a functional metavariable context binding. -/
def lookupFunc (b : Bindings) (n : String) : Option Expr :=
  (b.funcs.find? (fun p => p.1 == n)).map Prod.snd

/-- Bind a plain metavariable. -/
def bindPlain (b : Bindings) (n : String) (e : Expr) : Bindings :=
  { b with plain := (n, e) :: b.plain }

/-- Bind a functional metavariable to a context. -/
def bindFunc (b : Bindings) (n : String) (ctx : Expr) : Bindings :=
  { b with funcs := (n, ctx) :: b.funcs }

mutual

/-- Instantiate a pattern under bindings: plain metavariables are replaced by
their bound subexpression, a functional metavariable applied to an argument is
replaced by its bound context applied to the instantiated argument, and other
nodes are rebuilt.  Fails when a metavariable is unbound.  Modelled from the
spec, sections 4.1 and 4.2; the aris matcher module is not under src. -/
def instPat (pm fm : List String) (b : Bindings) : Expr → Option Expr
  | .taut => some .taut
  | .contra => some .contra
  | .var n args =>
      if pm.contains n && args.isEmpty then lookupPlain b n
      else if fm.contains n then
        match args with
        | [a] =>
          match lookupFunc b n, instPat pm fm b a with
          | some ctx, some ea => some (replaceIn holeMarker ea ctx)
          | _, _ => none
        | _ => none
      else
        match instPatArgs pm fm b args with
        | some as2 => some (.var n as2)
        | none => none
  | .not a =>
      match instPat pm fm b a with
      | some x => some (.not x)
      | none => none
  | .and a c =>
      match instPat pm fm b a, instPat pm fm b c with
      | some x, some y => some (.and x y)
      | _, _ => none
  | .or a c =>
      match instPat pm fm b a, instPat pm fm b c with
      | some x, some y => some (.or x y)
      | _, _ => none
  | .imp a c =>
      match instPat pm fm b a, instPat pm fm b c with
      | some x, some y => some (.imp x y)
      | _, _ => none
  | .iff a c =>
      match instPat pm fm b a, instPat pm fm b c with
      | some x, some y => some (.iff x y)
      | _, _ => none

/-- Instantiate a list of argument patterns. -/
def instPatArgs (pm fm : List String) (b : Bindings) : List Expr → Option (List Expr)
  | [] => some []
  | e :: es =>
      match instPat pm fm b e, instPatArgs pm fm b es with
      | some x, some xs => some (x :: xs)
      | _, _ => none

end

mutual

/-- Modelled from the spec, section 4.1: structural recursive descent matcher.
An atom matches only the identical atom; a plain metavariable matches any
candidate, and a repeated occurrence must equal its first binding; a functional
metavariable applied to an argument matches by abstracting the instantiated
argument out of the candidate to obtain a substitution context, which must agree
across repeated uses; compound nodes match only a candidate of the identical
constructor, recursing into children in order.  Failure is an ordinary outcome
returning none.  The aris matcher module is not under src. -/
def matchPat (pm fm : List String) (b : Bindings) : Expr → Expr → Option Bindings
  | .var n args, cand =>
      if pm.contains n && args.isEmpty then
        match lookupPlain b n with
        | some e => if beqExpr e cand then some b else none
        | none => some (bindPlain b n cand)
      else if fm.contains n then
        match args with
        | [a] =>
          match instPat pm fm b a with
          | some ea =>
            let ctx := replaceIn ea holeMarker cand
            match lookupFunc b n with
            | some ctx0 => if beqExpr ctx0 ctx then some b else none
            | none => some (bindFunc b n ctx)
          | none => none
        | _ => none
      else
        match cand with
        | .var m cargs => if n == m then matchPatArgs pm fm b args cargs else none
        | _ => none
  | .taut, cand =>
      match cand with
      | .taut => some b
      | _ => none
  | .contra, cand =>
      match cand with
      | .contra => some b
      | _ => none
  | .not p, cand =>
      match cand with
      | .not c => matchPat pm fm b p c
      | _ => none
  | .and p q, cand =>
      match cand with
      | .and c d =>
        match matchPat pm fm b p c with
        | some b2 => matchPat pm fm b2 q d
        | none => none
      | _ => none
  | .or p q, cand =>
      match cand with
      | .or c d =>
        match matchPat pm fm b p c with
        | some b2 => matchPat pm fm b2 q d
        | none => none
      | _ => none
  | .imp p q, cand =>
      match cand with
      | .imp c d =>
        match matchPat pm fm b p c with
        | some b2 => matchPat pm fm b2 q d
        | none => none
      | _ => none
  | .iff p q, cand =>
      match cand with
      | .iff c d =>
        match matchPat pm fm b p c with
        | some b2 => matchPat pm fm b2 q d
        | none => none
      | _ => none

/-- Match a list of argument patterns against a list of candidates in order,
threading bindings. -/
def matchPatArgs (pm fm : List String) (b : Bindings) : List Expr → List Expr → Option Bindings
  | [], [] => some b
  | p :: ps, c :: cs =>
      match matchPat pm fm b p c with
      | some b2 => matchPatArgs pm fm b2 ps cs
      | none => none
  | _, _ => none

end

/-- Modelled from the spec, sections 4.2 and 8: one direction of applicability of
a two premise equivalence clause whose matched side is a conjunction.  The two
cited dependency expressions feed the two conjuncts of the matched side with
shared metavariable bindings, and the resulting instantiation of the other side
must structurally equal the cited conclusion. -/
def clauseAppliesDir (pm fm : List String) (src dst d1 d2 concl : Expr) : Bool :=
  match src with
  | .and a bpat =>
    match matchPat pm fm ⟨[], []⟩ a d1 with
    | some b1 =>
      match matchPat pm fm b1 bpat d2 with
      | some b2 =>
        match instPat pm fm b2 dst with
        | some inst => beqExpr inst concl
        | none => false
      | none => false
    | none => false
  | _ => false

/-- Applicability of a clause in either direction, per the spec, section 4.2:
each clause is logically bidirectional. -/
def clauseApplies2 (pm fm : List String) (c : Expr × Expr) (d1 d2 concl : Expr) : Bool :=
  clauseAppliesDir pm fm c.1 c.2 d1 d2 concl || clauseAppliesDir pm fm c.2 c.1 d1 d2 concl

/-- Verification of a line citing the biconditional substitution rule with two
dependencies: some clause of the rule applies in some direction.  The plain
metavariables of the rule are phi and psi and its functional metavariable is S. -/
def verifyBicondSubst (d1 d2 concl : Expr) : Bool :=
  BICONDITIONAL_SUBSTITUTION.reductions.any
    (fun c => clauseApplies2 ["phi", "psi"] ["S"] c d1 d2 concl)

/-- Reference to a premise or justification line, mirroring PjRef, the coproduct
of a premise reference and a justification reference; the derived order on the
coproduct puts every premise reference before every justification reference. -/
inductive PjRef : Type where
  | prem (n : Nat)
  | just (n : Nat)
deriving DecidableEq, Repr

/-- Reference to a premise, justification, or subproof line, mirroring PjsRef. -/
inductive PjsRef : Type where
  | prem (n : Nat)
  | just (n : Nat)
  | sub (n : Nat)
deriving DecidableEq, Repr

/-- A line slot of a subproof: either a justification or a nested subproof,
mirroring the JsRef coproduct. -/
inductive JsLine : Type where
  | just (n : Nat)
  | sub (n : Nat)
deriving DecidableEq, Repr

/-- pj_to_pjs, injecting a premise or justification reference. -/
def pj_to_pjs : PjRef → PjsRef
  | .prem n => .prem n
  | .just n => .just n

/-- Lexicographic key realising the derived coproduct order on PjRef. -/
def PjRef.key : PjRef → Lex (Nat × Nat)
  | .prem n => toLex (0, n)
  | .just n => toLex (1, n)

/-- The key map is injective. -/
theorem PjRef.key_injective : Function.Injective PjRef.key := by
  intro a b h
  cases a <;> cases b <;> simp [PjRef.key, Prod.ext_iff] at h <;> simp [h]

instance : LinearOrder PjRef := LinearOrder.lift' PjRef.key PjRef.key_injective

/-- A justification line: conclusion expression, rule name, line dependencies
and subproof dependencies, mirroring the Justification tuple. -/
structure Justification where
  expr : Expr
  rule : String
  ldeps : List PjRef
  sdeps : List Nat

/-- A subproof: its ordered premise ids and its ordered line slots. -/
structure Subproof where
  premises : List Nat
  lines : List JsLine

/-- Modelled from the spec, sections 3, 4.5 and 9: the proof tree is a pooled
arena keeping association lists from stable ids to premise expressions,
justifications and nested subproofs, together with the root subproof and a
fresh id counter.  The aris proofs module is not under src. -/
structure Proof where
  premPool : List (Nat × Expr)
  justPool : List (Nat × Justification)
  subPool : List (Nat × Subproof)
  root : Subproof
  next : Nat

/-- Association list lookup by id, returning the first matching entry. -/
def alookup {α : Type} : List (Nat × α) → Nat → Option α
  | [], _ => none
  | p :: ps, n => if p.1 = n then some p.2 else alookup ps n

/-- Association list update by id, applying f to every entry with that id. -/
def aupdate {α : Type} (l : List (Nat × α)) (n : Nat) (f : α → α) : List (Nat × α) :=
  l.map (fun q => if q.1 = n then (q.1, f q.2) else q)

/-- The empty proof: empty pools, an empty root subproof, fresh counter zero. -/
def Proof.new : Proof := ⟨[], [], [], ⟨[], []⟩, 0⟩

/-- The subproof denoted by a locator: none is the root, some sid is a pooled
nested subproof. -/
def Proof.subproofAt (p : Proof) : Option Nat → Option Subproof
  | none => some p.root
  | some sid => alookup p.subPool sid

/-- The premises of the subproof denoted by a locator, mirroring the premises
method of the proof or subproof the widget holds. -/
def Proof.premisesAt (p : Proof) (loc : Option Nat) : List Nat :=
  match p.subproofAt loc with
  | some s => s.premises
  | none => []

/-- lookup_pj: resolve a premise or justification reference in the pools. -/
def Proof.lookup_pj (p : Proof) : PjRef → Option (Sum Expr Justification)
  | .prem n => (alookup p.premPool n).map Sum.inl
  | .just n => (alookup p.justPool n).map Sum.inr

/-- Does the subproof directly contain the referenced line? -/
def refInSub (r : PjsRef) (s : Subproof) : Bool :=
  match r with
  | .prem n => s.premises.any (fun x => decide (x = n))
  | .just n => s.lines.any (fun x => decide (x = JsLine.just n))
  | .sub n => s.lines.any (fun x => decide (x = JsLine.sub n))

/-- parent_of_line: the pooled subproof directly containing the line, none when
the line sits in the root.  The pools are shared by every subproof view, so the
answer does not depend on the view the widget holds; modelled from the spec,
sections 3 and 4.5 (a nested premise belongs to its subproof). -/
def Proof.parent_of_line (p : Proof) (r : PjsRef) : Option Nat :=
  (p.subPool.find? (fun q => refInSub r q.2)).map Prod.fst

/-- add_premise into the subproof denoted by the locator, appending at the end;
returns the new stable id. -/
def Proof.addPremiseIn (p : Proof) (loc : Option Nat) (e : Expr) : Proof × Nat :=
  let id := p.next
  let p2 := { p with premPool := (id, e) :: p.premPool, next := p.next + 1 }
  match loc with
  | none => ({ p2 with root := { p2.root with premises := p2.root.premises ++ [id] } }, id)
  | some sid =>
    ({ p2 with
       subPool := aupdate p2.subPool sid (fun s => { s with premises := s.premises ++ [id] }) }, id)

/-- prepend_step into the subproof denoted by the locator; returns the new id. -/
def Proof.prependStepIn (p : Proof) (loc : Option Nat) (j : Justification) : Proof × Nat :=
  let id := p.next
  let p2 := { p with justPool := (id, j) :: p.justPool, next := p.next + 1 }
  match loc with
  | none => ({ p2 with root := { p2.root with lines := JsLine.just id :: p2.root.lines } }, id)
  | some sid =>
    ({ p2 with
       subPool := aupdate p2.subPool sid (fun s => { s with lines := JsLine.just id :: s.lines }) }, id)

/-- Insert a new id adjacent to a target id in an ordered id list; lists not
containing the target are unchanged. -/
def insertRel (newId tgt : Nat) (after : Bool) : List Nat → List Nat
  | [] => []
  | x :: xs =>
    if x = tgt then (if after then x :: newId :: xs else newId :: x :: xs)
    else x :: insertRel newId tgt after xs

/-- Insert a new line slot adjacent to a target slot in an ordered line list. -/
def insertRelJs (newLine tgt : JsLine) (after : Bool) : List JsLine → List JsLine
  | [] => []
  | x :: xs =>
    if x = tgt then (if after then x :: newLine :: xs else newLine :: x :: xs)
    else x :: insertRelJs newLine tgt after xs

/-- add_premise_relative: a fresh premise inserted adjacent to an existing
premise, in whichever subproof holds it. -/
def Proof.add_premise_relative (p : Proof) (e : Expr) (pr : Nat) (after : Bool) : Proof × Nat :=
  let id := p.next
  ({ p with
     premPool := (id, e) :: p.premPool,
     next := p.next + 1,
     root := { p.root with premises := insertRel id pr after p.root.premises },
     subPool := p.subPool.map
       (fun q => (q.1, { q.2 with premises := insertRel id pr after q.2.premises })) }, id)

/-- add_step_relative: a fresh justification inserted adjacent to an existing
line slot, in whichever subproof holds it. -/
def Proof.add_step_relative (p : Proof) (j : Justification) (tgt : JsLine) (after : Bool) :
    Proof × Nat :=
  let id := p.next
  ({ p with
     justPool := (id, j) :: p.justPool,
     next := p.next + 1,
     root := { p.root with lines := insertRelJs (.just id) tgt after p.root.lines },
     subPool := p.subPool.map
       (fun q => (q.1, { q.2 with lines := insertRelJs (.just id) tgt after q.2.lines })) }, id)

/-- add_subproof_relative: a fresh, initially empty nested subproof inserted
adjacent to an existing line slot, per the spec, section 4.5. -/
def Proof.add_subproof_relative (p : Proof) (tgt : JsLine) (after : Bool) : Proof × Nat :=
  let id := p.next
  let subs := p.subPool.map
    (fun q => (q.1, { q.2 with lines := insertRelJs (.sub id) tgt after q.2.lines }))
  ({ p with
     subPool := (id, ⟨[], []⟩) :: subs,
     next := p.next + 1,
     root := { p.root with lines := insertRelJs (.sub id) tgt after p.root.lines } }, id)

/-- with_mut_premise: scoped mutation of one premise expression. -/
def Proof.with_mut_premise (p : Proof) (pr : Nat) (f : Expr → Expr) : Proof :=
  { p with premPool := aupdate p.premPool pr f }

/-- with_mut_step: scoped mutation of one justification. -/
def Proof.with_mut_step (p : Proof) (jr : Nat) (f : Justification → Justification) : Proof :=
  { p with justPool := aupdate p.justPool jr f }

/-- remove_line: delete a premise or justification from its pool and from the
premise or line list holding it. -/
def Proof.remove_line (p : Proof) : PjRef → Proof
  | .prem n =>
    { p with
      premPool := p.premPool.eraseP (fun q => decide (q.1 = n)),
      root := { p.root with premises := p.root.premises.erase n },
      subPool := p.subPool.map (fun q => (q.1, { q.2 with premises := q.2.premises.erase n })) }
  | .just n =>
    { p with
      justPool := p.justPool.eraseP (fun q => decide (q.1 = n)),
      root := { p.root with lines := p.root.lines.erase (.just n) },
      subPool := p.subPool.map (fun q => (q.1, { q.2 with lines := q.2.lines.erase (.just n) })) }

/-- The ids of subproofs nested directly inside a subproof. -/
def Subproof.childSubs (s : Subproof) : List Nat :=
  s.lines.filterMap (fun x => match x with | .sub n => some n | _ => none)

/-- The ids of justifications nested directly inside a subproof. -/
def Subproof.childJusts (s : Subproof) : List Nat :=
  s.lines.filterMap (fun x => match x with | .just n => some n | _ => none)

/-- Transitive subproof ids below an id, fuelled by the pool size so the
traversal terminates on any pool. -/
def descendants (pool : List (Nat × Subproof)) : Nat → Nat → List Nat
  | 0, sid => [sid]
  | fuel + 1, sid =>
    sid ::
      (match alookup pool sid with
       | some s => s.childSubs.flatMap (descendants pool fuel)
       | none => [])

/-- remove_subproof: cascading delete of a subproof and everything nested in
it, per the spec, section 4.5; all references into the removed subtree resolve
to none afterwards. -/
def Proof.remove_subproof (p : Proof) (sid : Nat) : Proof :=
  let ids := descendants p.subPool p.subPool.length sid
  let prems := ids.flatMap
    (fun i => match alookup p.subPool i with | some s => s.premises | none => [])
  let justs := ids.flatMap
    (fun i => match alookup p.subPool i with | some s => s.childJusts | none => [])
  { premPool := p.premPool.filter (fun q => decide (q.1 ∉ prems)),
    justPool := p.justPool.filter (fun q => decide (q.1 ∉ justs)),
    subPool := (p.subPool.filter (fun q => decide (q.1 ∉ ids))).map
      (fun q => (q.1, { q.2 with lines := q.2.lines.erase (.sub sid) })),
    root := { p.root with lines := p.root.lines.erase (.sub sid) },
    next := p.next }

/-- Sorted insertion without duplication: the effect of inserting one element
into an ordered set. -/
def insertSorted {α : Type} [LinearOrder α] (a : α) : List α → List α
  | [] => [a]
  | b :: bs => if a < b then a :: b :: bs else if a = b then b :: bs else b :: insertSorted a bs

/-- Collect a list into an ordered duplicate-free list, the effect of draining
an iterator into an ordered set. -/
def toSet {α : Type} [LinearOrder α] (l : List α) : List α :=
  l.foldl (fun s x => insertSorted x s) []

/-- Translation of toggle_dep_or_sdep from the widget: collect the dependency
vector into an ordered set, remove the dependency if present and insert it
otherwise, and store the ordered set back into the vector. -/
def toggle_dep_or_sdep {α : Type} [LinearOrder α] (dep : α) (deps : List α) : List α :=
  let s := toSet deps
  if dep ∈ s then s.erase dep else insertSorted dep s

/-- may_remove_line, translated from the widget source: the proof value the
widget passes is either the whole proof or one of its subproof views, and the
two differ only in which premise list the premises method returns, captured
here by the locator argument; lookups and parent resolution go through the
shared pools. -/
def may_remove_line (p : Proof) (loc : Option Nat) (r : PjRef) : Bool :=
  let is_premise := match p.lookup_pj r with
    | some (.inl _) => true
    | _ => false
  let in_subproof := (p.parent_of_line (pj_to_pjs r)).isSome
  if is_premise then
    if in_subproof then false
    else decide ((p.premisesAt loc).length > 1)
  else true

/-- A kind of proof structure item, mirroring ProofItemKind. -/
inductive ProofItemKind : Type where
  | premise
  | just
  | subproof
deriving DecidableEq, Repr

/-- A line action, mirroring LineActionKind; a dependency to toggle is a line
reference or a subproof reference. -/
inductive LineActionKind : Type where
  | insert (what : ProofItemKind) (after : Bool) (relativeTo : ProofItemKind)
  | delete (what : ProofItemKind)
  | setRule (rule : String)
  | select
  | toggleDependency (dep : Sum PjRef Nat)

/-- The widget state the claims concern: the proof, the map from line references
to raw input text, and the selected line.  The line and depth bookkeeping map
recomputed after each update for rendering is presentation data and not
modelled. -/
structure WidgetState where
  prf : Proof
  refToInput : List (PjRef × String)
  selectedLine : Option PjRef

/-- Remove the input entry of a line reference. -/
def pudRemove (l : List (PjRef × String)) (r : PjRef) : List (PjRef × String) :=
  l.filter (fun q => decide (q.1 ≠ r))

/-- new_empty_premise: the default premise, a variable with the empty name. -/
def new_empty_premise : Expr := pv ""

/-- new_empty_step: the default step, an empty conclusion justified by the
empty rule with no dependencies. -/
def new_empty_step : Justification := ⟨pv "", "EmptyRule", [], []⟩

/-- ProofUiData from_proof followed by the loop in new_empty_proof clearing
every input: one empty input entry per premise and per justification of the
proof.  The proof_ui_data module is not under src; modelled from its use. -/
def pudFromProof (p : Proof) : List (PjRef × String) :=
  p.premPool.map (fun q => (PjRef.prem q.1, "")) ++
    p.justPool.map (fun q => (PjRef.just q.1, ""))

/-- Translation of new_empty_proof: start from the empty proof, add one default
premise, and build the cleared input map. -/
def new_empty_proof : Proof × List (PjRef × String) :=
  let p := (Proof.new.addPremiseIn none new_empty_premise).1
  (p, pudFromProof p)

/-- The insert subproof action body: create the nested subproof adjacent to the
insertion point, then add one default premise and prepend one default step
inside it, selecting the new premise. -/
def insertSubproofAt (st : WidgetState) (tgt : JsLine) (after : Bool) : WidgetState :=
  let r1 := st.prf.add_subproof_relative tgt after
  let r2 := r1.1.addPremiseIn (some r1.2) new_empty_premise
  let r3 := r2.1.prependStepIn (some r1.2) new_empty_step
  { st with prf := r3.1, selectedLine := some (.prem r2.2) }

/-- Translation of the LineAction arms of the widget update function.  The
remove_line_if_allowed helper is inlined in the delete arm: the guard runs on
the subproof view given by the parent locator, and on success the input entry
is removed and the line deleted; either way the selection is cleared at the
end of the arm. -/
def updateLineAction (st : WidgetState) (lak : LineActionKind) (proofref : PjRef) : WidgetState :=
  match lak with
  | .insert what after relativeTo =>
    let origRef := pj_to_pjs proofref
    let parent := st.prf.parent_of_line origRef
    let insertionPoint : Option PjsRef :=
      match relativeTo with
      | .premise => some origRef
      | .just => some origRef
      | .subproof =>
        match parent with
        | some pr => some (.sub pr)
        | none => none
    match insertionPoint with
    | none => st
    | some ip =>
      match what with
      | .premise =>
        match ip with
        | .prem pr =>
          let r := st.prf.add_premise_relative new_empty_premise pr after
          { st with prf := r.1, selectedLine := some (.prem r.2) }
        | .just _ =>
          let r := st.prf.addPremiseIn none new_empty_premise
          { st with prf := r.1, selectedLine := some (.prem r.2) }
        | .sub _ =>
          let r := st.prf.addPremiseIn none new_empty_premise
          { st with prf := r.1, selectedLine := some (.prem r.2) }
      | .just =>
        match ip with
        | .prem _ =>
          let loc : Option Nat :=
            match parent with
            | some sid => if (alookup st.prf.subPool sid).isSome then some sid else none
            | none => none
          let r := st.prf.prependStepIn loc new_empty_step
          { st with prf := r.1, selectedLine := some (.just r.2) }
        | .just jr =>
          let r := st.prf.add_step_relative new_empty_step (.just jr) after
          { st with prf := r.1, selectedLine := some (.just r.2) }
        | .sub sr =>
          let r := st.prf.add_step_relative new_empty_step (.sub sr) after
          { st with prf := r.1, selectedLine := some (.just r.2) }
      | .subproof =>
        match ip with
        | .prem _ => st
        | .just jr => insertSubproofAt st (.just jr) after
        | .sub sr => insertSubproofAt st (.sub sr) after
  | .delete what =>
    let parent := st.prf.parent_of_line (pj_to_pjs proofref)
    let next : Proof × List (PjRef × String) :=
      match what with
      | .premise =>
        if may_remove_line st.prf parent proofref then
          (st.prf.remove_line proofref, pudRemove st.refToInput proofref)
        else (st.prf, st.refToInput)
      | .just =>
        if may_remove_line st.prf parent proofref then
          (st.prf.remove_line proofref, pudRemove st.refToInput proofref)
        else (st.prf, st.refToInput)
      | .subproof =>
        match parent with
        | some sr => (st.prf.remove_subproof sr, st.refToInput)
        | none => (st.prf, st.refToInput)
    { prf := next.1, refToInput := next.2, selectedLine := none }
  | .setRule rule =>
    match proofref with
    | .just jr =>
      let p2 := st.prf.with_mut_step jr (fun j => { j with rule := rule })
      { st with prf := p2, selectedLine := some proofref }
    | .prem _ => { st with selectedLine := some proofref }
  | .select => { st with selectedLine := some proofref }
  | .toggleDependency dep =>
    match proofref with
    | .just jr =>
      let p2 := st.prf.with_mut_step jr (fun j =>
        match dep with
        | .inl lr => { j with ldeps := toggle_dep_or_sdep lr j.ldeps }
        | .inr sr => { j with sdeps := toggle_dep_or_sdep sr j.sdeps })
      { st with prf := p2 }
    | .prem _ => st

/-- Feedback rendered for one line, mirroring the outcomes of
render_line_feedback: no verdict, a parse error, a premise or assumption badge,
a correct badge, or a rule error. -/
inductive Feedback : Type where
  | noVerdict
  | parseError
  | premiseOk (isSub : Bool)
  | correct
  | ruleError (msg : String)
deriving DecidableEq, Repr

/-- Translation of render_line_feedback.  The parser and verifier live in aris
modules not under src and are passed as functions: the stored input is fetched
and discarded when absent or empty, the parse result is mapped over the
verifier so verification runs only on a successful parse, and the verdict is
rendered from the combined result. -/
def render_line_feedback (parse : String → Option Expr)
    (verify : PjRef → Except String Unit)
    (refToInput : PjRef → Option String) (proofref : PjRef) (is_subproof : Bool) : Feedback :=
  match (refToInput proofref).bind (fun x => if !x.isEmpty then some x else none) with
  | none => .noVerdict
  | some raw =>
    match (parse raw).map (fun _ => verify proofref) with
    | none => .parseError
    | some (.ok _) =>
      match proofref with
      | .prem _ => .premiseOk is_subproof
      | .just _ => .correct
    | some (.error e) => .ruleError e

/-- The default widget state: the empty proof with its single default premise. -/
def exampleState1 : WidgetState :=
  { prf := new_empty_proof.1, refToInput := new_empty_proof.2, selectedLine := none }

/-- A widget state with a justification at the root and a nested subproof,
built by the insert actions: premise 0, then step 1 inserted relative to the
premise, then a subproof 2 with default premise 3 and default step 4 inserted
relative to step 1. -/
def exampleState2 : WidgetState :=
  updateLineAction
    (updateLineAction exampleState1 (.insert .just true .premise) (.prem 0))
    (.insert .subproof true .just) (.just 1)

/-- Every clause of the catalog passes the executable truth table oracle. -/
theorem catalog_all_ok : catalogClauses.all clauseOK = true := by decide

mutual

/-- Evaluation depends only on the environment at the names of the expression. -/
theorem eval_congr : ∀ (e : Expr) (env env2 : String → List Bool),
    (∀ n ∈ namesOf e, env n = env2 n) → eval e env = eval e env2
  | .taut, _, _, _ => rfl
  | .contra, _, _, _ => rfl
  | .var n args, env, env2, h => by
      have hn : env n = env2 n := h n (by simp [namesOf])
      have ha : evalArgs args env = evalArgs args env2 :=
        evalArgs_congr args env env2 (fun m hm => h m (by simp [namesOf, hm]))
      simp [eval, hn, ha]
  | .not e, env, env2, h => by
      have he := eval_congr e env env2 (fun m hm => h m (by simp [namesOf, hm]))
      simp [eval, he]
  | .and l r, env, env2, h => by
      have hl := eval_congr l env env2 (fun m hm => h m (by simp [namesOf, hm]))
      have hr := eval_congr r env env2 (fun m hm => h m (by simp [namesOf, hm]))
      simp [eval, hl, hr]
  | .or l r, env, env2, h => by
      have hl := eval_congr l env env2 (fun m hm => h m (by simp [namesOf, hm]))
      have hr := eval_congr r env env2 (fun m hm => h m (by simp [namesOf, hm]))
      simp [eval, hl, hr]
  | .imp l r, env, env2, h => by
      have hl := eval_congr l env env2 (fun m hm => h m (by simp [namesOf, hm]))
      have hr := eval_congr r env env2 (fun m hm => h m (by simp [namesOf, hm]))
      simp [eval, hl, hr]
  | .iff l r, env, env2, h => by
      have hl := eval_congr l env env2 (fun m hm => h m (by simp [namesOf, hm]))
      have hr := eval_congr r env env2 (fun m hm => h m (by simp [namesOf, hm]))
      simp [eval, hl, hr]

/-- Evaluation of argument lists depends only on the environment at their names. -/
theorem evalArgs_congr : ∀ (es : List Expr) (env env2 : String → List Bool),
    (∀ n ∈ namesOfArgs es, env n = env2 n) → evalArgs es env = evalArgs es env2
  | [], _, _, _ => rfl
  | e :: es, env, env2, h => by
      have h1 := eval_congr e env env2 (fun m hm => h m (by simp [namesOfArgs, hm]))
      have h2 := evalArgs_congr es env env2 (fun m hm => h m (by simp [namesOfArgs, hm]))
      simp [evalArgs, h1, h2]

end

/-- Every boolean table occurs in the enumeration of tables of its length. -/
theorem mem_allTables : ∀ bs : List Bool, bs ∈ allTables bs.length
  | [] => by simp [allTables]
  | b :: bs => by
      have ih := mem_allTables bs
      simp only [List.length_cons, allTables, List.mem_flatMap]
      exact ⟨bs, ih, by cases b <;> simp⟩

/-- The restriction of an environment with tables of the required sizes occurs
in the enumeration of assignments. -/
theorem mem_allEnvLists : ∀ (spec : List (String × Nat)) (env : String → List Bool),
    (∀ p ∈ spec, (env p.1).length = p.2) →
    spec.map (fun p => (p.1, env p.1)) ∈ allEnvLists spec
  | [], _, _ => by simp [allEnvLists]
  | (n, len) :: rest, env, h => by
      have hlen : (env n).length = len := h (n, len) (by simp)
      have ih := mem_allEnvLists rest env (fun p hp => h p (by simp [hp]))
      simp only [allEnvLists, List.map_cons, List.mem_flatMap]
      refine ⟨env n, ?_, ?_⟩
      · rw [← hlen]
        exact mem_allTables (env n)
      · exact List.mem_map.mpr ⟨rest.map (fun p => (p.1, env p.1)), ih, rfl⟩

/-- Reading the restriction of an environment agrees with the environment on
every restricted name. -/
theorem envOf_map : ∀ (spec : List (String × Nat)) (env : String → List Bool) (n : String),
    n ∈ spec.map Prod.fst → envOf (spec.map (fun p => (p.1, env p.1))) n = env n
  | [], _, _, h => by simp at h
  | (m, len) :: rest, env, n, h => by
      by_cases hmn : m = n
      · subst hmn
        simp [envOf, List.find?]
      · have h2 : n ∈ rest.map Prod.fst := by
          simp only [List.map_cons, List.mem_cons] at h
          rcases h with h | h
          · exact absurd h.symm hmn
          · exact h
        have ih := envOf_map rest env n h2
        have hb : (m == n) = false := by simp [hmn]
        simpa [envOf, List.find?, hb] using ih

/-- C1: for every clause of every rewrite rule in the static equivalence
catalog and for every assignment of boolean truth tables of the inferred
arities to the free metavariables, the left and right patterns evaluate to
identical boolean results. -/
theorem oracle_soundness :
    ∀ c ∈ catalogClauses, ∀ env : String → List Bool,
      (∀ n ∈ clauseNames c, (env n).length = 2 ^ clauseArity c n) →
      eval c.1 env = eval c.2 env := by
  intro c hc env henv
  have hok : clauseOK c = true := List.all_eq_true.mp catalog_all_ok c hc
  rw [clauseOK, List.all_eq_true] at hok
  have hspec : ∀ p ∈ clauseSpec c, (env p.1).length = p.2 := by
    intro p hp
    rcases List.mem_map.mp hp with ⟨n, hn, rfl⟩
    exact henv n hn
  have hmem := mem_allEnvLists (clauseSpec c) env hspec
  have heq := hok _ hmem
  rw [beq_iff_eq] at heq
  have hfst : (clauseSpec c).map Prod.fst = clauseNames c := by
    rw [clauseSpec, List.map_map]
    induction clauseNames c with
    | nil => rfl
    | cons a as ih => simpa using ih
  have hagree : ∀ n, n ∈ clauseNames c →
      envOf ((clauseSpec c).map (fun p => (p.1, env p.1))) n = env n := by
    intro n hn
    exact envOf_map (clauseSpec c) env n (hfst ▸ hn)
  have h1 : eval c.1 (envOf ((clauseSpec c).map (fun p => (p.1, env p.1)))) = eval c.1 env :=
    eval_congr c.1 _ _ (fun n hn =>
      hagree n (List.mem_dedup.mpr (List.mem_append_left _ hn)))
  have h2 : eval c.2 (envOf ((clauseSpec c).map (fun p => (p.1, env p.1)))) = eval c.2 env :=
    eval_congr c.2 _ _ (fun n hn =>
      hagree n (List.mem_dedup.mpr (List.mem_append_right _ hn)))
  rw [← h1, ← h2]
  exact heq

/-- Witness for C1 at the double negation clause and the all true assignment. -/
theorem oracle_soundness_witness :
    eval (Expr.not (Expr.not (pv "P"))) (fun _ => [true]) = eval (pv "P") (fun _ => [true]) :=
  oracle_soundness (Expr.not (Expr.not (pv "P")), pv "P") (List.Mem.head _)
    (fun _ => [true]) (by decide)

/-- The little-endian index of a table is below two to its length. -/
theorem evalIndex_lt : ∀ bs : List Bool, evalIndex bs < 2 ^ bs.length
  | [] => by simp [evalIndex]
  | b :: bs => by
      have ih := evalIndex_lt bs
      simp only [evalIndex, List.length_cons, pow_succ]
      cases b
      · simp
        omega
      · simp
        omega

/-- Bit i of the little-endian index of a table is entry i of the table. -/
theorem testBit_evalIndex : ∀ (bs : List Bool) (i : Nat),
    (evalIndex bs).testBit i = bs.getD i false
  | [], i => by simp [evalIndex]
  | b :: bs, 0 => by
      rw [evalIndex, Nat.testBit_zero]
      cases b
      · simp
      · simp
  | b :: bs, i + 1 => by
      rw [evalIndex, Nat.testBit_succ]
      have hdiv : ((if b then 1 else 0) + 2 * evalIndex bs) / 2 = evalIndex bs := by
        cases b
        · simp
        · simp
          omega
      rw [hdiv]
      simpa using testBit_evalIndex bs i

/-- The row of bits of the index of a table reconstructs the table. -/
theorem row_evalIndex (bs : List Bool) :
    (List.range bs.length).map (fun i => (evalIndex bs).testBit i) = bs := by
  apply List.ext_getElem
  · simp
  · intro i h1 h2
    simp only [List.getElem_map, List.getElem_range]
    rw [testBit_evalIndex]
    exact List.getD_eq_getElem bs false h2

/-- C7: the truth table enumeration is exhaustive and exact: the helper passes
exactly 2 to the n rows to the callback, and every boolean vector of length n
is passed exactly once. -/
theorem for_each_truthtable_exact (n : Nat) :
    (for_each_truthtable n).length = 2 ^ n ∧
    ∀ bs : List Bool, bs.length = n → (for_each_truthtable n).count bs = 1 := by
  constructor
  · simp [for_each_truthtable]
  · intro bs hbs
    have hnodup : (for_each_truthtable n).Nodup := by
      rw [for_each_truthtable]
      refine List.Nodup.map_on ?_ (List.nodup_range _)
      intro x hx y hy hxy
      rw [List.mem_range] at hx hy
      apply Nat.eq_of_testBit_eq
      intro i
      by_cases hi : i < n
      · have := congrArg (fun l => l[i]?) hxy
        simpa [List.getElem?_map, List.getElem?_range, hi] using this
      · have hxi : x.testBit i = false :=
          Nat.testBit_eq_false_of_lt
            (lt_of_lt_of_le hx (Nat.pow_le_pow_right (by norm_num) (le_of_not_lt hi)))
        have hyi : y.testBit i = false :=
          Nat.testBit_eq_false_of_lt
            (lt_of_lt_of_le hy (Nat.pow_le_pow_right (by norm_num) (le_of_not_lt hi)))
        rw [hxi, hyi]
    have hmem : bs ∈ for_each_truthtable n := by
      rw [for_each_truthtable]
      refine List.mem_map.mpr ⟨evalIndex bs, ?_, ?_⟩
      · rw [List.mem_range, ← hbs]
        exact evalIndex_lt bs
      · rw [← hbs]
        exact row_evalIndex bs
    have hbridge : (for_each_truthtable n).count bs =
        @List.count _ instBEqOfDecidableEq bs (for_each_truthtable n) := by
      unfold List.count
      apply List.countP_congr
      intro x hx
      simp only [beq_iff_eq]
    rw [hbridge]
    exact List.count_eq_one_of_mem hnodup hmem

/-- Witness for C7 at n equal one and the vector holding true. -/
theorem for_each_truthtable_exact_witness :
    (for_each_truthtable 1).length = 2 ^ 1 ∧ (for_each_truthtable 1).count [true] = 1 :=
  ⟨(for_each_truthtable_exact 1).1, (for_each_truthtable_exact 1).2 [true] rfl⟩

/-- C2: for the biconditional substitution rule, with dependencies P iff Q and
P and R, the conclusion (P iff Q) and (Q and R) verifies, the functional
metavariable binding to the context hole and R applied to psi, while the
conclusion (P iff Q) and (Q and S) does not verify. -/
theorem bicond_subst_scenario :
    verifyBicondSubst (.iff (pv "P") (pv "Q")) (.and (pv "P") (pv "R"))
        (.and (.iff (pv "P") (pv "Q")) (.and (pv "Q") (pv "R"))) = true ∧
    verifyBicondSubst (.iff (pv "P") (pv "Q")) (.and (pv "P") (pv "R"))
        (.and (.iff (pv "P") (pv "Q")) (.and (pv "Q") (pv "S"))) = false :=
  ⟨by decide, by decide⟩

/-- C3 counterexample: the new empty proof holds no justification step at all,
so it does not contain exactly one default justification step. -/
theorem new_empty_proof_no_step : ¬ new_empty_proof.1.justPool.length = 1 := by decide

/-- C3 amended: constructing the new empty proof produces exactly one premise,
holding the default premise expression, and no justification steps. -/
theorem new_empty_proof_shape :
    new_empty_proof.1.root.premises.length = 1 ∧
    alookup new_empty_proof.1.premPool 0 = some new_empty_premise ∧
    new_empty_proof.1.justPool = [] ∧
    new_empty_proof.1.root.lines = [] :=
  ⟨rfl, rfl, rfl, rfl⟩

/-- Membership in a sorted insertion. -/
theorem mem_insertSorted {α : Type} [LinearOrder α] (a x : α) :
    ∀ l : List α, (x ∈ insertSorted a l) ↔ x = a ∨ x ∈ l
  | [] => by simp [insertSorted]
  | b :: bs => by
      simp only [insertSorted]
      split
      · simp [List.mem_cons]
      · split
        · rename_i hab
          subst hab
          simp only [List.mem_cons]
          tauto
        · have ih := mem_insertSorted a x bs
          simp only [List.mem_cons, ih]
          tauto

/-- Sorted insertion preserves strict sortedness. -/
theorem sorted_insertSorted {α : Type} [LinearOrder α] (a : α) :
    ∀ l : List α, l.Sorted (fun u v => u < v) → (insertSorted a l).Sorted (fun u v => u < v)
  | [], _ => by simp [insertSorted]
  | b :: bs, h => by
      rw [List.sorted_cons] at h
      simp only [insertSorted]
      split
      · rename_i hab
        rw [List.sorted_cons]
        refine ⟨?_, ?_⟩
        · intro x hx
          rcases List.mem_cons.mp hx with rfl | hx
          · exact hab
          · exact lt_trans hab (h.1 x hx)
        · rw [List.sorted_cons]
          exact h
      · split
        · rw [List.sorted_cons]
          exact h
        · rename_i hab hne
          have hba : b < a := by
            rcases lt_trichotomy a b with h1 | h1 | h1
            · exact absurd h1 hab
            · exact absurd h1 hne
            · exact h1
          rw [List.sorted_cons]
          refine ⟨?_, sorted_insertSorted a bs h.2⟩
          intro x hx
          rcases (mem_insertSorted a x bs).mp hx with rfl | hx
          · exact hba
          · exact h.1 x hx

/-- Folding sorted insertion over a list preserves strict sortedness. -/
theorem sorted_foldl_insert {α : Type} [LinearOrder α] :
    ∀ (l s : List α), s.Sorted (fun u v => u < v) →
      (l.foldl (fun t x => insertSorted x t) s).Sorted (fun u v => u < v)
  | [], _, hs => hs
  | x :: xs, s, hs => sorted_foldl_insert xs _ (sorted_insertSorted x s hs)

/-- Membership after folding sorted insertion over a list. -/
theorem mem_foldl_insert {α : Type} [LinearOrder α] :
    ∀ (l s : List α) (x : α),
      (x ∈ l.foldl (fun t a => insertSorted a t) s) ↔ x ∈ s ∨ x ∈ l
  | [], s, x => by simp
  | a :: as, s, x => by
      have ih := mem_foldl_insert as (insertSorted a s) x
      simp only [List.foldl_cons] at *
      rw [ih, mem_insertSorted]
      simp only [List.mem_cons]
      tauto

/-- The collected ordered set is strictly sorted. -/
theorem sorted_toSet {α : Type} [LinearOrder α] (l : List α) :
    (toSet l).Sorted (fun u v => u < v) :=
  sorted_foldl_insert l [] (by simp)

/-- The collected ordered set has the members of the original list. -/
theorem mem_toSet {α : Type} [LinearOrder α] (l : List α) (x : α) : (x ∈ toSet l) ↔ x ∈ l := by
  rw [toSet, mem_foldl_insert]
  simp

/-- One toggle leaves the dependency vector strictly sorted. -/
theorem toggle_sorted {α : Type} [LinearOrder α] (dep : α) (deps : List α) :
    (toggle_dep_or_sdep dep deps).Sorted (fun u v => u < v) := by
  rw [toggle_dep_or_sdep]
  split
  · exact List.Pairwise.sublist (List.erase_sublist _ _) (sorted_toSet deps)
  · exact sorted_insertSorted dep _ (sorted_toSet deps)

/-- Toggling the same dependency twice restores the membership of the vector. -/
theorem toggle_toggle_mem {α : Type} [LinearOrder α] (dep : α) (deps : List α) (x : α) :
    (x ∈ toggle_dep_or_sdep dep (toggle_dep_or_sdep dep deps)) ↔ x ∈ deps := by
  have hs := sorted_toSet deps
  have hnd : (toSet deps).Nodup := hs.nodup
  by_cases hdep : dep ∈ toSet deps
  · have h1 : toggle_dep_or_sdep dep deps = (toSet deps).erase dep := by
      rw [toggle_dep_or_sdep]
      exact if_pos hdep
    rw [h1]
    have hdep2 : dep ∉ (toSet deps).erase dep := fun h => ((hnd.mem_erase_iff).mp h).1 rfl
    rw [toggle_dep_or_sdep]
    rw [if_neg (by rw [mem_toSet]; exact hdep2)]
    rw [mem_insertSorted, mem_toSet, hnd.mem_erase_iff]
    constructor
    · rintro (rfl | ⟨hne, hx⟩)
      · exact (mem_toSet deps x).mp hdep
      · exact (mem_toSet deps x).mp hx
    · intro hx
      by_cases hxd : x = dep
      · exact Or.inl hxd
      · exact Or.inr ⟨hxd, (mem_toSet deps x).mpr hx⟩
  · have h1 : toggle_dep_or_sdep dep deps = insertSorted dep (toSet deps) := by
      rw [toggle_dep_or_sdep]
      exact if_neg hdep
    rw [h1]
    have hs2 := sorted_insertSorted dep (toSet deps) hs
    have hnd2 : (toSet (insertSorted dep (toSet deps))).Nodup := (sorted_toSet _).nodup
    have hdep2 : dep ∈ toSet (insertSorted dep (toSet deps)) := by
      rw [mem_toSet, mem_insertSorted]
      exact Or.inl rfl
    rw [toggle_dep_or_sdep]
    rw [if_pos hdep2]
    rw [hnd2.mem_erase_iff, mem_toSet, mem_insertSorted, mem_toSet]
    constructor
    · rintro ⟨hne, rfl | hx⟩
      · exact absurd rfl hne
      · exact hx
    · intro hx
      refine ⟨?_, Or.inr hx⟩
      intro hxd
      subst hxd
      exact hdep ((mem_toSet deps x).mpr hx)

/-- C9: toggling a dependency is an involution on the set of dependencies, and
after any single toggle the stored dependency vector is strictly increasing
with no duplicates; this holds both for line dependencies, ordered by the
derived coproduct order on references, and for subproof dependencies. -/
theorem toggle_dependency_involution :
    (∀ (dep : PjRef) (deps : List PjRef),
        (toggle_dep_or_sdep dep deps).Sorted (fun u v => u < v) ∧
        (toggle_dep_or_sdep dep deps).Nodup ∧
        ∀ x, (x ∈ toggle_dep_or_sdep dep (toggle_dep_or_sdep dep deps)) ↔ x ∈ deps) ∧
    (∀ (dep : Nat) (deps : List Nat),
        (toggle_dep_or_sdep dep deps).Sorted (fun u v => u < v) ∧
        (toggle_dep_or_sdep dep deps).Nodup ∧
        ∀ x, (x ∈ toggle_dep_or_sdep dep (toggle_dep_or_sdep dep deps)) ↔ x ∈ deps) :=
  ⟨fun dep deps =>
    ⟨toggle_sorted dep deps, (toggle_sorted dep deps).nodup, toggle_toggle_mem dep deps⟩,
   fun dep deps =>
    ⟨toggle_sorted dep deps, (toggle_sorted dep deps).nodup, toggle_toggle_mem dep deps⟩⟩

/-- C10: after processing any delete line action, for a premise, justification
or subproof, the selected line is cleared, so the selection never references a
line that was just deleted. -/
theorem delete_clears_selection (st : WidgetState) (what : ProofItemKind) (r : PjRef) :
    (updateLineAction st (.delete what) r).selectedLine = none := rfl

/-- C8: verification is only attempted on parsed lines.  When the stored input
of a line is absent or empty, the feedback is no verdict whatever the verifier
does, so the verifier is never consulted; when the stored input fails to
parse, the feedback is a parse error whatever the verifier does, never a
verification error. -/
theorem feedback_requires_parse :
    (∀ (parse : String → Option Expr) (verify : PjRef → Except String Unit)
        (inputs : PjRef → Option String) (r : PjRef) (b : Bool),
        (inputs r = none ∨ inputs r = some "") →
        render_line_feedback parse verify inputs r b = .noVerdict) ∧
    (∀ (parse : String → Option Expr) (verify : PjRef → Except String Unit)
        (inputs : PjRef → Option String) (r : PjRef) (b : Bool) (raw : String),
        inputs r = some raw → raw.isEmpty = false → parse raw = none →
        render_line_feedback parse verify inputs r b = .parseError) := by
  constructor
  · intro parse verify inputs r b h
    rcases h with h | h
    · unfold render_line_feedback
      rw [h]
      rfl
    · unfold render_line_feedback
      rw [h]
      rfl
  · intro parse verify inputs r b raw hin hraw hparse
    unfold render_line_feedback
    rw [hin]
    simp [hraw, hparse]

/-- Witness for C8 at a missing input, at an input failing to parse, and at a
verifier that always succeeds. -/
theorem feedback_requires_parse_witness :
    render_line_feedback (fun _ => none) (fun _ => Except.ok ()) (fun _ => none)
        (.prem 0) false = .noVerdict ∧
    render_line_feedback (fun _ => none) (fun _ => Except.ok ()) (fun _ => some "A")
        (.prem 0) false = .parseError :=
  ⟨feedback_requires_parse.1 (fun _ => none) (fun _ => Except.ok ()) (fun _ => none)
      (.prem 0) false (Or.inl rfl),
   feedback_requires_parse.2 (fun _ => none) (fun _ => Except.ok ()) (fun _ => some "A")
      (.prem 0) false "A" rfl rfl rfl⟩

/-- C4: for a top level premise, the removal guard is the premise count of the
root: removal is allowed exactly when the root has more than one premise;
deleting the only top level premise leaves the proof unchanged, and deleting a
top level premise among several erases exactly it from the root premise list. -/
theorem premise_removal_guard (st : WidgetState) (r : Nat) (e : Expr)
    (hlook : alookup st.prf.premPool r = some e)
    (hparent : st.prf.parent_of_line (.prem r) = none) :
    (may_remove_line st.prf none (.prem r) = decide (st.prf.root.premises.length > 1)) ∧
    (st.prf.root.premises.length = 1 →
      (updateLineAction st (.delete .premise) (.prem r)).prf = st.prf) ∧
    (1 < st.prf.root.premises.length →
      (updateLineAction st (.delete .premise) (.prem r)).prf.root.premises =
        st.prf.root.premises.erase r) := by
  have hmay : may_remove_line st.prf none (.prem r) =
      decide (st.prf.root.premises.length > 1) := by
    simp [may_remove_line, Proof.lookup_pj, hlook, pj_to_pjs, hparent, Proof.premisesAt,
      Proof.subproofAt]
  refine ⟨hmay, ?_, ?_⟩
  · intro hlen
    have hmay2 : may_remove_line st.prf none (.prem r) = false := by
      rw [hmay, hlen]
      rfl
    simp [updateLineAction, pj_to_pjs, hparent, hmay2]
  · intro hlen
    have hmay2 : may_remove_line st.prf none (.prem r) = true := by
      rw [hmay]
      simpa using hlen
    simp [updateLineAction, pj_to_pjs, hparent, hmay2, Proof.remove_line]

/-- Witness for C4 at the default widget state, whose proof has one top level
premise: the guard equals the premise count test and deletion is a no-op. -/
theorem premise_removal_guard_witness :
    (may_remove_line exampleState1.prf none (.prem 0) =
      decide (exampleState1.prf.root.premises.length > 1)) ∧
    (updateLineAction exampleState1 (.delete .premise) (.prem 0)).prf = exampleState1.prf :=
  ⟨(premise_removal_guard exampleState1 0 new_empty_premise rfl rfl).1,
   (premise_removal_guard exampleState1 0 new_empty_premise rfl rfl).2.1 rfl⟩

/-- C5: a premise nested inside a subproof is never removable: the guard is
false on every proof view, and the delete action leaves both the proof and the
input map unchanged. -/
theorem nested_premise_guard (st : WidgetState) (r : Nat) (e : Expr) (sr : Nat)
    (hlook : alookup st.prf.premPool r = some e)
    (hparent : st.prf.parent_of_line (.prem r) = some sr) :
    (∀ loc : Option Nat, may_remove_line st.prf loc (.prem r) = false) ∧
    (updateLineAction st (.delete .premise) (.prem r)).prf = st.prf ∧
    (updateLineAction st (.delete .premise) (.prem r)).refToInput = st.refToInput := by
  have hmay : ∀ loc : Option Nat, may_remove_line st.prf loc (.prem r) = false := by
    intro loc
    simp [may_remove_line, Proof.lookup_pj, hlook, pj_to_pjs, hparent]
  refine ⟨hmay, ?_, ?_⟩
  · simp [updateLineAction, pj_to_pjs, hparent, hmay]
  · simp [updateLineAction, pj_to_pjs, hparent, hmay]

/-- Witness for C5 at the nested default premise of the example state built by
the insert subproof action. -/
theorem nested_premise_guard_witness :
    may_remove_line exampleState2.prf (some 2) (.prem 3) = false ∧
    (updateLineAction exampleState2 (.delete .premise) (.prem 3)).prf = exampleState2.prf :=
  ⟨(nested_premise_guard exampleState2 3 new_empty_premise 2 rfl rfl).1 (some 2),
   (nested_premise_guard exampleState2 3 new_empty_premise 2 rfl rfl).2.1⟩

/-- C6: inserting a new subproof relative to a justification line creates a
nested subproof containing exactly one default premise and exactly one default
justification step, and the new premise becomes the selected line. -/
theorem insert_subproof_defaults (st : WidgetState) (jr : Nat) (after : Bool) :
    alookup (updateLineAction st (.insert .subproof after .just) (.just jr)).prf.subPool
        st.prf.next = some ⟨[st.prf.next + 1], [JsLine.just (st.prf.next + 2)]⟩ ∧
    alookup (updateLineAction st (.insert .subproof after .just) (.just jr)).prf.premPool
        (st.prf.next + 1) = some new_empty_premise ∧
    alookup (updateLineAction st (.insert .subproof after .just) (.just jr)).prf.justPool
        (st.prf.next + 2) = some new_empty_step ∧
    (updateLineAction st (.insert .subproof after .just) (.just jr)).selectedLine =
      some (.prem (st.prf.next + 1)) := by
  refine ⟨?_, ?_, ?_, ?_⟩ <;>
    simp [updateLineAction, pj_to_pjs, insertSubproofAt, Proof.add_subproof_relative,
      Proof.addPremiseIn, Proof.prependStepIn, aupdate, alookup]

end Aris
